import Mathlib

/-!
A verification development for the goproxy repository (a caching proxy for
the Go module protocol).  Go strings are modelled as lists of characters
(Go indexes bytes; every byte the code inspects is ASCII, so the two views
coincide on the inputs of interest).  Go functions returning `(..., ok bool)`
or `(..., err error)` are modelled with `Option`.  External effects (git
subprocess invocations, `os.Readlink`) are modelled as explicit oracle
parameters; external library helpers from `golang.org/x/mod` that the
claims depend on (`semver.Build`, `strconv.Atoi`) are modelled from their
library sources.
-/

namespace GoProxy

/-- Go strings, viewed as character lists. -/
abbrev GoStr := List Char

/-- Coerce a Lean string literal into the `GoStr` model. -/
def gs (s : String) : GoStr := s.data

/-- ASCII decimal digit test, as in `strconv` / `semver`. -/
def isDigitB (c : Char) : Bool := '0' ≤ c && c ≤ '9'

/-- Models `strings.HasPrefix s pre`. -/
def goStartsWith : GoStr → GoStr → Bool
  | _, [] => true
  | [], _ :: _ => false
  | c :: s, d :: p => c == d && goStartsWith s p

/-- Models `strings.HasSuffix s suf`. -/
def goEndsWith (s suf : GoStr) : Bool := goStartsWith s.reverse suf.reverse

/-- Models `strings.TrimSuffix s suf`. -/
def goTrimSuffix (s suf : GoStr) : GoStr :=
  if goEndsWith s suf then s.take (s.length - suf.length) else s

/-- Models `strings.CutPrefix s pre`: the remainder when `pre` is a prefix. -/
def goCutPre (s pre : GoStr) : Option GoStr :=
  if goStartsWith s pre then some (s.drop pre.length) else none

/-- Models `strings.Split s sep` for a one-character separator. -/
def goSplit (sep : Char) : GoStr → List GoStr
  | [] => [[]]
  | c :: rest =>
    match goSplit sep rest with
    | [] => if c = sep then [[], []] else [[c]]
    | s :: ss => if c = sep then [] :: s :: ss else (c :: s) :: ss

/-- Models `strings.Join parts sep` for a one-character separator. -/
def goJoin (sep : Char) : List GoStr → GoStr
  | [] => []
  | [s] => s
  | s :: ss => s ++ sep :: goJoin sep ss

/-- Models `strings.LastIndexByte s c`, as an `Option`al index. -/
def lastIdxOf (c : Char) : GoStr → Option Nat
  | [] => none
  | a :: rest =>
    match lastIdxOf c rest with
    | some i => some (i + 1)
    | none => if a = c then some 0 else none

/-- Numeric value of a digit string (most significant digit first). -/
def digitsVal (l : GoStr) : Nat := l.foldl (fun n c => n * 10 + (c.toNat - 48)) 0

/-- Whether `strconv.Atoi` succeeds on `s`: an optional sign, then one or
more decimal digits, with the value inside the signed 64-bit range. -/
def goAtoiOk (s : GoStr) : Bool :=
  match s with
  | [] => false
  | c :: rest =>
    let digits := if c = '+' || c = '-' then rest else c :: rest
    !digits.isEmpty && digits.all isDigitB &&
      (if c = '-' then digitsVal digits ≤ 9223372036854775808
       else digitsVal digits ≤ 9223372036854775807)

section Semver
/-! A model of the `golang.org/x/mod/semver` parser, as far as the code
under verification consumes it (`semver.Build`).  Translated from the
library source of `semver.parse` and its helpers. -/

/-- Models `semver.isIdentChar`. -/
def isIdentChar (c : Char) : Bool :=
  ('A' ≤ c && c ≤ 'Z') || ('a' ≤ c && c ≤ 'z') || ('0' ≤ c && c ≤ '9') || c == '-'

/-- Models `semver.isBadNum`: all digits, more than one of them, leading zero. -/
def isBadNum (v : GoStr) : Bool :=
  v.all isDigitB && decide (1 < v.length) && v.head? == some '0'

/-- Models `semver.parseInt`: a digit run without a leading zero; returns the rest. -/
def parseIntSemver : GoStr → Option GoStr
  | [] => none
  | c :: rest =>
    if !isDigitB c then none
    else if c = '0' && !(rest.takeWhile isDigitB).isEmpty then none
    else some (rest.dropWhile isDigitB)

/-- One dot-separated pre-release identifier: nonempty, ident chars, not a
numeric identifier with a leading zero. -/
def preSegOk (seg : GoStr) : Bool := !seg.isEmpty && seg.all isIdentChar && !isBadNum seg

/-- Models `semver.parsePrerelease`: consumes from the leading `-` up to a `+` or
the end of the string; returns the rest on success. -/
def parsePre : GoStr → Option GoStr
  | '-' :: rest =>
    if ((goSplit '.' (rest.takeWhile (· ≠ '+'))).all preSegOk) then
      some (rest.dropWhile (· ≠ '+'))
    else none
  | _ => none

/-- One dot-separated build identifier: nonempty, ident chars. -/
def buildSegOk (seg : GoStr) : Bool := !seg.isEmpty && seg.all isIdentChar

/-- Models `semver.parseBuild`, which must consume the whole remainder: a leading
`+` then dot-separated identifiers. -/
def parseBuildChk : GoStr → Bool
  | '+' :: rest => (goSplit '.' rest).all buildSegOk
  | _ => false

/-- Models `semver.parse`, reduced to the field the code consumes: `some build`
(the build suffix, `[]` when absent) for a valid version, `none` otherwise. -/
def semverParseBuild (v : GoStr) : Option GoStr :=
  match v with
  | 'v' :: v1 =>
    match parseIntSemver v1 with
    | none => none
    | some v2 =>
      match v2 with
      | [] => some []
      | '.' :: v3 =>
        match parseIntSemver v3 with
        | none => none
        | some v4 =>
          match v4 with
          | [] => some []
          | '.' :: v5 =>
            match parseIntSemver v5 with
            | none => none
            | some v6 =>
              let step : Option GoStr :=
                match v6 with
                | '-' :: _ => parsePre v6
                | _ => some v6
              match step with
              | none => none
              | some v7 =>
                match v7 with
                | [] => some []
                | '+' :: _ => if parseBuildChk v7 then some v7 else none
                | _ => none
          | _ => none
      | _ => none
  | _ => none

/-- Models `semver.Build`: the build suffix of a valid semantic version, `""`
otherwise. -/
def semverBuild (v : GoStr) : GoStr := (semverParseBuild v).getD []

end Semver

/-- Models `splitModuleMajorVer` (the resolver's major-version split; does not
handle `gopkg.in/`).  Splits the module path on `/`, rejects empty or
dot-leading components, and detaches a trailing `vN` component accepted by
`strconv.Atoi`. -/
def splitModuleMajorVer (modulePath : GoStr) : Option (GoStr × GoStr) :=
  if (goSplit '/' modulePath).any (fun comp => comp.isEmpty || comp.head? == some '.') then
    none
  else if (goSplit '/' modulePath).length < 2 then some (modulePath, [])
  else
    match (goSplit '/' modulePath).getLast? with
    | none => none
    | some [] => none
    | some (c :: digits) =>
      if c ≠ 'v' then some (modulePath, [])
      else if !goAtoiOk digits then some (modulePath, [])
      else some (goJoin '/' (goSplit '/' modulePath).dropLast, c :: digits)

/-- Models `checkModulePathVer`: validates a `(module path, version)` pair and
returns `(path, major tag, incompatible flag)`;`none` models `ok = false`. -/
def checkModulePathVer (modulePath ver : GoStr) : Option (GoStr × GoStr × Bool) :=
  if goStartsWith modulePath (gs "gopkg.in/") then
    if semverBuild ver = gs "+incompatible" then none
    else
      match lastIdxOf '.' modulePath with
      | some idx =>
        if goStartsWith ver (modulePath.drop (idx + 1)) then
          some (modulePath, [], false)
        else none
      | none => none
  else
    match splitModuleMajorVer modulePath with
    | none => none
    | some (path, major) =>
      if decide (major = []) && !goStartsWith ver (gs "v0.") && !goStartsWith ver (gs "v1.")
          && !decide (semverBuild ver = gs "+incompatible") then
        none
      else some (path, major, decide (semverBuild ver = gs "+incompatible"))

/-- The loop body of `checkModVcsLocal` (proxy.go).  The filesystem is
abstracted as `vcs`, mapping a directory path to the target of its `.vcs`
symlink when `os.Readlink` succeeds.  `sep` is the index cursor into
`modulePath` and `subPath` the accumulated suffix, exactly as in the source;
the Go loop terminates because `sep` strictly decreases, so a fuel of
`modulePath.length + 1` is an upper bound on the iteration count. -/
def checkModVcsLocalAux (vcs : GoStr → Option GoStr) (modulePath : GoStr) :
    Nat → Nat → GoStr → Option (GoStr × GoStr × GoStr)
  | 0, _, _ => none
  | fuel + 1, sep, subPath =>
    let parentPath := modulePath.take sep
    match vcs parentPath with
    | some target => some (parentPath, subPath, target)
    | none =>
      match lastIdxOf '/' parentPath with
      | none => none
      | some sep2 =>
        checkModVcsLocalAux vcs modulePath fuel sep2 (modulePath.drop (sep2 + 1))

/-- Models `checkModVcsLocal`: walk the module path from the longest prefix down,
probing each prefix's `.vcs` symlink; `none` models the `os.ErrNotExist`
return. -/
def checkModVcsLocal (vcs : GoStr → Option GoStr) (modulePath : GoStr) :
    Option (GoStr × GoStr × GoStr) :=
  checkModVcsLocalAux vcs modulePath (modulePath.length + 1) modulePath.length []

/-- Predicate: `P` is a `/`-boundary prefix of `M`: the whole path, or a prefix cut at
a `/`. -/
def BoundaryPre (M P : GoStr) : Prop := P = M ∨ ∃ S, M = P ++ '/' :: S

/-- Models `strings.CutPrefix(s, "v")`, as used by the refspec retry. -/
def stripV : GoStr → GoStr
  | 'v' :: rest => rest
  | other => other

/-- The initial git refspec computed by both `cacheModGit` (monitor.go) and
`serveModGit` (the archive assembler): the pseudo-version's commit hash for
pseudo-versions, `<subdir>/<version>` when a subdirectory is present,
otherwise the canonical version itself.  `pseudoRev` is the hash decoded by
`module.PseudoVersionRev`. -/
def refspecInit (pseudoVer : Bool) (subPath verCanonical pseudoRev : GoStr) : GoStr :=
  if pseudoVer then pseudoRev
  else if subPath ≠ [] then subPath ++ '/' :: verCanonical
  else verCanonical

/-- The `retry_refspec` loop of `cacheModGit` (monitor.go): `query` tells
whether `git log -1 --format=%H <refspec>` exits successfully; the result
is whether the version was found locally.  On failure, when the version is
not a pseudo-version, no subdirectory is involved, and the refspec starts
with `v`, the leading `v` is stripped and the query reruns. -/
def cacheModGitCheck (query : GoStr → Bool) (pseudoVer : Bool) (subPath : GoStr) :
    GoStr → Bool
  | [] => query []
  | c :: rest =>
    query (c :: rest) ||
      (!pseudoVer && subPath.isEmpty && c == 'v' && cacheModGitCheck query pseudoVer subPath rest)

/-- The `retry_refspec` loop of `serveModGit` (the archive assembler):
`query` yields the parsed Unix commit time of `git log -1 --format=%ct
<refspec>` when both the subprocess and the integer parse succeed.  Returns
the refspec that succeeded together with its timestamp. -/
def serveModGitResolveRef (query : GoStr → Option Int) (pseudoVer : Bool) (subPath : GoStr) :
    GoStr → Option (GoStr × Int)
  | [] => (query []).map (fun tm => (([] : GoStr), tm))
  | c :: rest =>
    match query (c :: rest) with
    | some tm => some (c :: rest, tm)
    | none =>
      if !pseudoVer && subPath.isEmpty && c == 'v' then
        serveModGitResolveRef query pseudoVer subPath rest
      else none

/-- The full module path reported for a served module: repository root,
then the in-repo subdirectory, then the major-version tag (`serveModGit`). -/
def modFullPath (modulePath subPath verMajorTag : GoStr) : GoStr :=
  let m1 := if subPath ≠ [] then modulePath ++ '/' :: subPath else modulePath
  if verMajorTag ≠ [] then m1 ++ '/' :: verMajorTag else m1

/-- The base treeish used by the `.mod` branch of `serveModGit`:
`<refspec>^\x7btree\x7d:` followed by `<subdir>/` when a subdirectory is
present. -/
def modTreeBase (refspec subPath : GoStr) : GoStr :=
  refspec ++ gs "^\x7btree\x7d:" ++ (if subPath ≠ [] then subPath ++ ['/'] else [])

/-- Outcome of one `git archive --format=tar <treeish> go.mod` invocation
plus the tar extraction: the subprocess failed to start (`spawnFail`), the
file was not extracted or the command exited nonzero (`missing`), or the
file's bytes were obtained (`found`). -/
inductive GitArchiveResult where
  | spawnFail : GitArchiveResult
  | missing : GitArchiveResult
  | found : GoStr → GitArchiveResult
deriving DecidableEq

/-- The `.mod` branch of `serveModGit` (`retry_mod` loop): try
`go.mod` at the treeish extended with the major tag, retry once with the
tag suffix removed, and synthesize `module <full path>\n` when both
extractions fail.  A spawn failure aborts with an error (`none`). -/
def serveModGitMod (run : GoStr → GitArchiveResult)
    (refspec subPath verMajorTag modulePath : GoStr) : Option GoStr :=
  let treeish := modTreeBase refspec subPath
  let arg := if verMajorTag ≠ [] then treeish ++ verMajorTag else treeish
  let synth := gs "module " ++ modFullPath modulePath subPath verMajorTag ++ ['\n']
  match run arg with
  | .spawnFail => none
  | .found data => some data
  | .missing =>
    if arg = treeish then some synth
    else
      match run treeish with
      | .spawnFail => none
      | .found data => some data
      | .missing => some synth

/-- Type flag of a tar header, as inspected by `collectGitArchiveOpts`. -/
inductive TarType where
  | reg : TarType
  | dir : TarType
  | other : TarType
deriving DecidableEq

/-- A tar entry seen during the first (survey) pass. -/
structure TarEntry where
  name : GoStr
  ty : TarType
deriving DecidableEq

/-- The state threaded through the survey loop of `collectGitArchiveOpts`. -/
structure CollectState where
  hasLicense : Bool
  hasVerLicense : Bool
  useVersionedDir : Bool
  filteredPaths : List GoStr
deriving DecidableEq

/-- One iteration of the survey loop of `collectGitArchiveOpts`: regular
files update the LICENSE flags and the nested-`go.mod` bookkeeping,
directories are skipped, and any other entry type is recorded for
exclusion. -/
def collectStep (vertag : GoStr) (st : CollectState) (e : TarEntry) : CollectState :=
  match e.ty with
  | .dir => st
  | .other => { st with filteredPaths := st.filteredPaths ++ [e.name] }
  | .reg =>
    let st1 :=
      if e.name = gs "LICENSE" then { st with hasLicense := true }
      else if e.name = vertag ++ gs "/LICENSE" then { st with hasVerLicense := true }
      else st
    if goEndsWith e.name (gs "/go.mod") then
      if goTrimSuffix e.name (gs "/go.mod") = vertag then
        { st1 with useVersionedDir := true }
      else
        { st1 with filteredPaths := st1.filteredPaths ++ [goTrimSuffix e.name (gs "go.mod")] }
    else st1

/-- The vendor-directory exclusion patterns of `collectGitArchiveOpts`. -/
def vendorExcludes : List GoStr :=
  [gs ":(exclude)vendor/*.go", gs ":(exclude)vendor/*/**", gs ":(exclude,top)**/vendor/*"]

/-- Models `collectGitArchiveOpts`, with the first-pass `git archive` stream
abstracted as the list of tar entries it produces.  Returns the argument
list for the second (zip) pass and the effective has-LICENSE flag. -/
def collectGitArchiveOpts (entries : List TarEntry) (pre treeish vertag : GoStr) :
    List GoStr × Bool :=
  let st := entries.foldl (collectStep vertag) ⟨false, false, false, []⟩
  let hasLicense := if st.useVersionedDir then st.hasVerLicense else st.hasLicense
  let treeish2 :=
    if st.useVersionedDir then
      (if goEndsWith treeish (gs ":") then treeish else treeish ++ ['/']) ++ vertag
    else treeish
  let cmdArgs :=
    [gs "archive", gs "--prefix", pre, gs "--format=zip", gs "-0", treeish2] ++
      vendorExcludes ++
      st.filteredPaths.filterMap (fun path =>
        if !st.useVersionedDir then some (gs ":(exclude,top)" ++ path)
        else
          match goCutPre path (vertag ++ ['/']) with
          | some sub => some (gs ":(exclude,top)" ++ sub)
          | none => none)
  (cmdArgs, hasLicense)

/-- The Pass 4 skip decision of the `.zip` branch of `serveModGit`: the
fourth (LICENSE-injection) pass is skipped when the survey found a LICENSE
at the effective scope, or when the request has neither a subdirectory nor
a major-version tag. -/
def serveModGitZipSkipsPass4 (entries : List TarEntry) (pre treeish : GoStr)
    (subPath verMajorTag : GoStr) : Bool :=
  (collectGitArchiveOpts entries pre treeish verMajorTag).2 ||
    (subPath.isEmpty && verMajorTag.isEmpty)

/-- Modelled from the spec: "If Pass 1 did not find a LICENSE at the
appropriate scope and the request has no subdirectory and no major tag,
skip."  Stated for comparison with the code's skip decision. -/
def specPass4Skip (hasLicenseAtScope : Bool) (subPath verMajorTag : GoStr) : Bool :=
  !hasLicenseAtScope && subPath.isEmpty && verMajorTag.isEmpty

/-! Helper lemmas about the string model -/

theorem goStartsWith_iff (s pre : GoStr) : goStartsWith s pre = true ↔ ∃ t, s = pre ++ t := by
  induction pre generalizing s with
  | nil => simp [goStartsWith]
  | cons d p ih =>
    cases s with
    | nil => simp [goStartsWith]
    | cons c s' =>
      simp only [goStartsWith, Bool.and_eq_true, beq_iff_eq, ih, List.cons_append,
        List.cons.injEq]
      constructor
      · rintro ⟨rfl, t, rfl⟩; exact ⟨t, rfl, rfl⟩
      · rintro ⟨t, rfl, rfl⟩; exact ⟨rfl, t, rfl⟩

theorem goEndsWith_iff (s suf : GoStr) : goEndsWith s suf = true ↔ ∃ p, s = p ++ suf := by
  rw [goEndsWith, goStartsWith_iff]
  constructor
  · rintro ⟨t, ht⟩
    refine ⟨t.reverse, ?_⟩
    have := congrArg List.reverse ht
    simpa using this
  · rintro ⟨p, rfl⟩
    exact ⟨p.reverse, by simp⟩

theorem goEndsWith_append (p suf : GoStr) : goEndsWith (p ++ suf) suf = true :=
  (goEndsWith_iff _ _).mpr ⟨p, rfl⟩

theorem goTrimSuffix_append (p suf : GoStr) : goTrimSuffix (p ++ suf) suf = p := by
  rw [goTrimSuffix, if_pos (goEndsWith_append p suf)]
  simp [List.take_left']

theorem endsWith_trim_eq {n pre suf : GoStr} :
    goEndsWith n suf = true ∧ goTrimSuffix n suf = pre ↔ n = pre ++ suf := by
  constructor
  · rintro ⟨he, ht⟩
    obtain ⟨p, rfl⟩ := (goEndsWith_iff _ _).mp he
    rw [goTrimSuffix_append] at ht
    rw [ht]
  · rintro rfl
    exact ⟨goEndsWith_append _ _, goTrimSuffix_append _ _⟩

theorem goSplit_ne_nil (sep : Char) (l : GoStr) : goSplit sep l ≠ [] := by
  cases l with
  | nil => simp [goSplit]
  | cons c rest =>
    by_cases hc : c = sep <;>
      rcases h : goSplit sep rest with _ | ⟨s, ss⟩ <;>
        simp [goSplit, h, hc]

theorem goJoin_cons (sep : Char) (s : GoStr) (ss : List GoStr) (h : ss ≠ []) :
    goJoin sep (s :: ss) = s ++ sep :: goJoin sep ss := by
  cases ss with
  | nil => exact absurd rfl h
  | cons t ts => rfl

theorem goJoin_cons_cons (sep c : Char) (s : GoStr) (ss : List GoStr) :
    goJoin sep ((c :: s) :: ss) = c :: goJoin sep (s :: ss) := by
  cases ss <;> rfl

theorem goJoin_goSplit (sep : Char) (l : GoStr) : goJoin sep (goSplit sep l) = l := by
  induction l with
  | nil => rfl
  | cons c rest ih =>
    rcases h : goSplit sep rest with _ | ⟨s, ss⟩
    · exact absurd h (goSplit_ne_nil sep rest)
    · rw [h] at ih
      simp only [goSplit, h]
      by_cases hc : c = sep
      · rw [if_pos hc, goJoin_cons sep [] (s :: ss) (by simp), List.nil_append, ih, hc]
      · rw [if_neg hc, goJoin_cons_cons, ih]

theorem goSplit_sep_notMem (sep : Char) (l : GoStr) :
    ∀ comp ∈ goSplit sep l, sep ∉ comp := by
  induction l with
  | nil => simp [goSplit]
  | cons c rest ih =>
    rcases h : goSplit sep rest with _ | ⟨s, ss⟩
    · exact absurd h (goSplit_ne_nil sep rest)
    · rw [h] at ih
      simp only [goSplit, h]
      by_cases hc : c = sep
      · rw [if_pos hc]
        intro comp hm
        rcases List.mem_cons.mp hm with rfl | hm
        · simp
        · exact ih comp hm
      · rw [if_neg hc]
        intro comp hm
        rcases List.mem_cons.mp hm with rfl | hm
        · intro habs
          rcases List.mem_cons.mp habs with h1 | h1
          · exact hc h1.symm
          · exact ih s (by simp) h1
        · exact ih comp (List.mem_cons_of_mem s hm)

theorem goSplit_sepFree {sep : Char} {l : GoStr} (h : sep ∉ l) : goSplit sep l = [l] := by
  induction l with
  | nil => rfl
  | cons c rest ih =>
    have hc : ¬ c = sep := fun hcs => h (hcs ▸ List.mem_cons_self c rest)
    have hr : sep ∉ rest := fun hm => h (List.mem_cons_of_mem c hm)
    simp [goSplit, ih hr, hc]

theorem goSplit_append {sep : Char} {x : GoStr} (y : GoStr) (hx : sep ∉ x) :
    goSplit sep (x ++ sep :: y) = x :: goSplit sep y := by
  induction x with
  | nil =>
    rcases h : goSplit sep y with _ | ⟨s, ss⟩
    · exact absurd h (goSplit_ne_nil sep y)
    · simp [goSplit, h]
  | cons a x' ih =>
    have ha : ¬ a = sep := fun has => hx (has ▸ List.mem_cons_self a x')
    have hx' : sep ∉ x' := fun hm => hx (List.mem_cons_of_mem a hm)
    simp [goSplit, ih hx', ha]

theorem goSplit_goJoin (sep : Char) :
    ∀ cs : List GoStr, cs ≠ [] → (∀ c ∈ cs, sep ∉ c) →
      goSplit sep (goJoin sep cs) = cs
  | [], h, _ => absurd rfl h
  | [c], _, hf => by
    simp only [goJoin]
    exact goSplit_sepFree (hf c (by simp))
  | c :: c2 :: cs', _, hf => by
    rw [goJoin_cons sep c (c2 :: cs') (by simp)]
    rw [goSplit_append _ (hf c (by simp))]
    rw [goSplit_goJoin sep (c2 :: cs') (by simp)
      (fun x hx => hf x (List.mem_cons_of_mem c hx))]

theorem goJoin_append_single (sep : Char) :
    ∀ (cs : List GoStr), cs ≠ [] → ∀ y, goJoin sep (cs ++ [y]) = goJoin sep cs ++ sep :: y
  | [], h, _ => absurd rfl h
  | [c], _, y => rfl
  | c :: c2 :: cs', _, y => by
    rw [List.cons_append, goJoin_cons sep c ((c2 :: cs') ++ [y]) (by simp),
      goJoin_cons sep c (c2 :: cs') (by simp)]
    rw [goJoin_append_single sep (c2 :: cs') (by simp) y]
    simp

theorem lastIdxOf_lt {c : Char} {l : GoStr} :
    ∀ {i : Nat}, lastIdxOf c l = some i → i < l.length := by
  induction l with
  | nil => intro i h; simp [lastIdxOf] at h
  | cons a rest ih =>
    intro i h
    rcases hr : lastIdxOf c rest with _ | j
    · by_cases hac : a = c
      · simp only [lastIdxOf, hr, if_pos hac, Option.some.injEq] at h
        subst h; simp
      · simp [lastIdxOf, hr, hac] at h
    · simp only [lastIdxOf, hr, Option.some.injEq] at h
      subst h
      have := ih hr
      simp only [List.length_cons]
      omega

theorem lastIdxOf_getElem {c : Char} {l : GoStr} :
    ∀ {i : Nat}, lastIdxOf c l = some i → l[i]? = some c := by
  induction l with
  | nil => intro i h; simp [lastIdxOf] at h
  | cons a rest ih =>
    intro i h
    rcases hr : lastIdxOf c rest with _ | j
    · by_cases hac : a = c
      · simp only [lastIdxOf, hr, if_pos hac, Option.some.injEq] at h
        subst h; simp [hac]
      · simp [lastIdxOf, hr, hac] at h
    · simp only [lastIdxOf, hr, Option.some.injEq] at h
      subst h
      simpa using ih hr

theorem lastIdxOf_none {c : Char} {l : GoStr} (h : lastIdxOf c l = none) :
    ∀ j : Nat, l[j]? ≠ some c := by
  induction l with
  | nil => intro j; simp
  | cons a rest ih =>
    intro j
    rcases hr : lastIdxOf c rest with _ | i
    · by_cases hac : a = c
      · simp [lastIdxOf, hr, hac] at h
      · cases j with
        | zero => simpa using hac
        | succ j' =>
          have h' : lastIdxOf c rest = none := by simp [lastIdxOf, hr, hac] at h ⊢
          simpa using ih h' j'
    · simp [lastIdxOf, hr] at h

theorem lastIdxOf_last {c : Char} {l : GoStr} :
    ∀ {i : Nat}, lastIdxOf c l = some i → ∀ j, i < j → l[j]? ≠ some c := by
  induction l with
  | nil => intro i h; simp [lastIdxOf] at h
  | cons a rest ih =>
    intro i h j hij
    rcases hr : lastIdxOf c rest with _ | i0
    · by_cases hac : a = c
      · simp only [lastIdxOf, hr, if_pos hac, Option.some.injEq] at h
        subst h
        cases j with
        | zero => omega
        | succ j' => simpa using lastIdxOf_none hr j'
      · simp [lastIdxOf, hr, hac] at h
    · simp only [lastIdxOf, hr, Option.some.injEq] at h
      subst h
      cases j with
      | zero => omega
      | succ j' =>
        have hlt : i0 < j' := by omega
        simpa using ih hr j' hlt

/-! Inversion lemmas for the major-version split -/

theorem split_inv_pos {p m t : GoStr} (h : splitModuleMajorVer p = some (m, t))
    (ht : t ≠ []) :
    (goSplit '/' p).any (fun comp => comp.isEmpty || comp.head? == some '.') = false ∧
    2 ≤ (goSplit '/' p).length ∧
    (goSplit '/' p).getLast? = some t ∧
    (∃ d, t = 'v' :: d ∧ goAtoiOk d = true) ∧
    m = goJoin '/' (goSplit '/' p).dropLast := by
  unfold splitModuleMajorVer at h
  split at h
  · simp at h
  next hbad =>
    split at h
    next hlen => simp at h; exact absurd h.2 ht
    next hlen =>
      split at h
      · simp at h
      · simp at h
      next c digits heq =>
        split at h
        next => simp at h; exact absurd h.2 ht
        next hv =>
          split at h
          next => simp at h; exact absurd h.2 ht
          next hatoi =>
            simp only [Option.some.injEq, Prod.mk.injEq] at h
            refine ⟨Bool.not_eq_true _ ▸ by simpa using hbad, by omega, ?_, ?_, h.1.symm⟩
            · rw [heq, ← h.2]
            · refine ⟨digits, ?_, ?_⟩
              · rw [← h.2]
                have : c = 'v' := by
                  by_contra hc
                  exact hv hc
                rw [this]
              · simpa using hatoi

theorem split_inv_tagfree {p m t : GoStr} (h : splitModuleMajorVer p = some (m, t))
    (ht : t = []) : m = p := by
  unfold splitModuleMajorVer at h
  split at h
  · simp at h
  · split at h
    next => simp at h; exact h.1.symm
    next =>
      split at h
      · simp at h
      · simp at h
      next c digits heq =>
        split at h
        next => simp at h; exact h.1.symm
        next =>
          split at h
          next => simp at h; exact h.1.symm
          next =>
            simp only [Option.some.injEq, Prod.mk.injEq] at h
            subst ht
            exact absurd h.2 (by simp)

theorem split_comps_good {p : GoStr}
    (hbad : (goSplit '/' p).any (fun comp => comp.isEmpty || comp.head? == some '.') = false) :
    ∀ comp ∈ goSplit '/' p, comp ≠ [] ∧ comp.head? ≠ some '.' := by
  intro comp hm
  have := (List.any_eq_false.mp hbad) comp hm
  simp only [Bool.or_eq_true, List.isEmpty_iff, beq_iff_eq] at this
  push_neg at this
  exact this

/-- Claim C1, amended: the split rejects exactly the paths with an empty or
dot-leading component; a produced major tag is a last component `v` plus a
string `strconv.Atoi` accepts (an optionally signed 64-bit decimal integer,
not merely a non-negative one), split off only when the path has at least
two components; otherwise the whole path is returned with an empty tag. -/
theorem splitModuleMajorVer_spec (p : GoStr) :
    ((splitModuleMajorVer p).isSome = true ↔
      ∀ comp ∈ goSplit '/' p, comp ≠ [] ∧ comp.head? ≠ some '.') ∧
    (∀ m t, splitModuleMajorVer p = some (m, t) → t ≠ [] →
      ∃ d, t = 'v' :: d ∧ goAtoiOk d = true ∧ p = m ++ '/' :: t) ∧
    (∀ m t, splitModuleMajorVer p = some (m, t) → t = [] → m = p) ∧
    (∀ m t d, splitModuleMajorVer p = some (m, t) →
      2 ≤ (goSplit '/' p).length → (goSplit '/' p).getLast? = some ('v' :: d) →
      goAtoiOk d = true → t = 'v' :: d) := by
  refine ⟨⟨?_, ?_⟩, ?_, ?_, ?_⟩
  · -- isSome → components good
    intro hs
    by_cases hbad :
        (goSplit '/' p).any (fun comp => comp.isEmpty || comp.head? == some '.') = true
    · rw [splitModuleMajorVer, if_pos hbad] at hs
      simp at hs
    · exact split_comps_good (Bool.not_eq_true _ ▸ hbad)
  · -- components good → isSome
    intro hgood
    have hbad : (goSplit '/' p).any (fun comp => comp.isEmpty || comp.head? == some '.') = false := by
      rw [List.any_eq_false]
      intro comp hm
      have := hgood comp hm
      simp only [Bool.or_eq_true, List.isEmpty_iff, beq_iff_eq]
      push_neg
      exact this
    rw [splitModuleMajorVer, if_neg (by simp [hbad])]
    by_cases hlen : (goSplit '/' p).length < 2
    · rw [if_pos hlen]; rfl
    · rw [if_neg hlen]
      have hne : goSplit '/' p ≠ [] := goSplit_ne_nil '/' p
      rcases hlast : (goSplit '/' p).getLast? with _ | last
      · rw [List.getLast?_eq_getLast_of_ne_nil hne] at hlast
        simp at hlast
      · have hmem : last ∈ goSplit '/' p := by
          have hc := List.dropLast_append_getLast? last (Option.mem_def.mpr hlast)
          rw [← hc]
          simp
        have hlastne : last ≠ [] := (hgood last hmem).1
        rcases last with _ | ⟨c, digits⟩
        · exact absurd rfl hlastne
        · by_cases hv : c = 'v'
          · by_cases ha : goAtoiOk digits
            · simp [hv, ha]
            · simp [hv, ha]
          · simp [hv]
  · -- positive split shape
    intro m t h ht
    obtain ⟨hbad, hlen, hlast, ⟨d, hd, ha⟩, hm⟩ := split_inv_pos h ht
    refine ⟨d, hd, ha, ?_⟩
    have hne : goSplit '/' p ≠ [] := goSplit_ne_nil '/' p
    have hcomps : (goSplit '/' p).dropLast ++ [t] = goSplit '/' p :=
      List.dropLast_append_getLast? t (Option.mem_def.mpr hlast)
    have hdlne : (goSplit '/' p).dropLast ≠ [] := by
      have : (goSplit '/' p).dropLast.length = (goSplit '/' p).length - 1 :=
        List.length_dropLast _
      intro habs
      rw [habs] at this
      simp at this
      omega
    calc p = goJoin '/' (goSplit '/' p) := (goJoin_goSplit '/' p).symm
    _ = goJoin '/' ((goSplit '/' p).dropLast ++ [t]) := by rw [hcomps]
    _ = goJoin '/' (goSplit '/' p).dropLast ++ '/' :: t :=
        goJoin_append_single '/' _ hdlne t
    _ = m ++ '/' :: t := by rw [← hm]
  · -- tag-free split returns the whole path
    intro m t h ht
    exact split_inv_tagfree h ht
  · -- a well-formed vN last component is always split off
    intro m t d h hlen hlast ha
    by_cases ht : t = []
    · exfalso
      subst ht
      unfold splitModuleMajorVer at h
      split at h
      · simp at h
      · split at h
        next h2 => omega
        next =>
          rw [hlast] at h
          simp [ha] at h
    · obtain ⟨_, _, hlast', ⟨d', hd', _⟩, _⟩ := split_inv_pos h ht
      rw [hlast'] at hlast
      rw [Option.some.injEq] at hlast
      exact hlast

/-- Claim C1, as stated, is false: `strconv.Atoi` accepts a signed integer,
so the last component `v-1` — `v` followed by a negative integer — is
still split off as a major-version tag; and a single-component path such
as `v2` is never split. -/
theorem splitModuleMajorVer_counterexample :
    splitModuleMajorVer (gs "example.com/v-1") = some (gs "example.com", gs "v-1") ∧
    splitModuleMajorVer (gs "example.com/v-1") ≠ some (gs "example.com/v-1", []) ∧
    splitModuleMajorVer (gs "v2") = some (gs "v2", []) := by
  refine ⟨by decide, by decide, by decide⟩

/-- Witness for the amended C1 at a concrete input. -/
theorem splitModuleMajorVer_spec_witness :
    ∃ d, gs "v2" = 'v' :: d ∧ goAtoiOk d = true ∧
      gs "example.com/foo/v2" = gs "example.com/foo" ++ '/' :: gs "v2" :=
  (splitModuleMajorVer_spec (gs "example.com/foo/v2")).2.1 (gs "example.com/foo")
    (gs "v2") (by decide) (by decide)

/-- Claim C9, amended: a second application of the split is the identity on
the module component whenever that component does not itself end in a
`v<integer>` component; in general the split is not idempotent. -/
theorem splitModuleMajorVer_idem (p m t : GoStr)
    (h : splitModuleMajorVer p = some (m, t))
    (hlast : (match (goSplit '/' m).getLast? with
              | some ('v' :: d) => !goAtoiOk d
              | _ => true) = true) :
    splitModuleMajorVer m = some (m, []) := by
  by_cases ht : t = []
  · have := split_inv_tagfree h ht
    subst this
    rw [h, ht]
  · obtain ⟨hbad, hlen, hlast', _, hm⟩ := split_inv_pos h ht
    have hne : goSplit '/' p ≠ [] := goSplit_ne_nil '/' p
    have hcomps : (goSplit '/' p).dropLast ++ [t] = goSplit '/' p :=
      List.dropLast_append_getLast? t (Option.mem_def.mpr hlast')
    have hdlne : (goSplit '/' p).dropLast ≠ [] := by
      have hl : (goSplit '/' p).dropLast.length = (goSplit '/' p).length - 1 :=
        List.length_dropLast _
      intro habs
      rw [habs] at hl
      simp at hl
      omega
    have hsub : ∀ x ∈ (goSplit '/' p).dropLast, x ∈ goSplit '/' p := by
      intro x hx
      rw [← hcomps]
      exact List.mem_append_left _ hx
    have hsplitm : goSplit '/' m = (goSplit '/' p).dropLast := by
      rw [hm]
      exact goSplit_goJoin '/' _ hdlne
        (fun x hx => goSplit_sep_notMem '/' p x (hsub x hx))
    have hgoodm : (goSplit '/' m).any
        (fun comp => comp.isEmpty || comp.head? == some '.') = false := by
      rw [hsplitm, List.any_eq_false]
      intro x hx
      have := split_comps_good hbad x (hsub x hx)
      simp only [Bool.or_eq_true, List.isEmpty_iff, beq_iff_eq]
      push_neg
      exact this
    rw [splitModuleMajorVer, if_neg (by simp [hgoodm])]
    by_cases hlen2 : (goSplit '/' m).length < 2
    · rw [if_pos hlen2]
    · rw [if_neg hlen2]
      have hnem : goSplit '/' m ≠ [] := goSplit_ne_nil '/' m
      rcases hlst : (goSplit '/' m).getLast? with _ | last
      · rw [List.getLast?_eq_getLast_of_ne_nil hnem] at hlst
        simp at hlst
      · have hmem : last ∈ goSplit '/' m := by
          have hc := List.dropLast_append_getLast? last (Option.mem_def.mpr hlst)
          rw [← hc]
          simp
        have hlastne : last ≠ [] := by
          have := split_comps_good hgoodm last hmem
          exact this.1
        rcases last with _ | ⟨c, digits⟩
        · exact absurd rfl hlastne
        · by_cases hv : c = 'v'
          · subst hv
            rw [hlst] at hlast
            simp only [Bool.not_eq_true'] at hlast
            simp [hlast]
          · simp [hv]

/-- Claim C9, as stated, is false: on `a/v2/v3` the split strips `v3`, and
a second application to the module component `a/v2` strips `v2` as well
instead of returning `a/v2` with an empty tag. -/
theorem splitModuleMajorVer_idem_counterexample :
    splitModuleMajorVer (gs "a/v2/v3") = some (gs "a/v2", gs "v3") ∧
    splitModuleMajorVer (gs "a/v2") = some (gs "a", gs "v2") ∧
    splitModuleMajorVer (gs "a/v2") ≠ some (gs "a/v2", []) := by
  refine ⟨by decide, by decide, by decide⟩

/-- Witness for the amended C9 at a concrete input. -/
theorem splitModuleMajorVer_idem_witness :
    splitModuleMajorVer (gs "example.com/foo") = some (gs "example.com/foo", []) :=
  splitModuleMajorVer_idem (gs "example.com/foo/v2") (gs "example.com/foo") (gs "v2")
    (by decide) (by decide)

/-- Claim C2: for a module path outside the `gopkg.in` host that passes
the major-version split, the `(path, version)` pair is accepted iff the
split produced a `vN` tag, or the version starts with `v0.` or `v1.`, or
its semver build metadata is `+incompatible`. -/
theorem checkModulePathVer_accept_iff (p ver m t : GoStr)
    (hng : goStartsWith p (gs "gopkg.in/") = false)
    (hsp : splitModuleMajorVer p = some (m, t)) :
    (checkModulePathVer p ver).isSome = true ↔
      (t ≠ [] ∨ goStartsWith ver (gs "v0.") = true ∨ goStartsWith ver (gs "v1.") = true ∨
        semverBuild ver = gs "+incompatible") := by
  simp only [checkModulePathVer, hng, Bool.false_eq_true, if_false, hsp]
  by_cases hI : semverBuild ver = gs "+incompatible" <;>
    by_cases h0 : goStartsWith ver (gs "v0.") = true <;>
      by_cases h1 : goStartsWith ver (gs "v1.") = true <;>
        by_cases htt : t = [] <;>
          simp [hI, h0, h1, htt]

/-- Witness for C2 at a concrete input. -/
theorem checkModulePathVer_accept_iff_witness :
    (checkModulePathVer (gs "example.com/a") (gs "v1.0.0")).isSome = true :=
  (checkModulePathVer_accept_iff (gs "example.com/a") (gs "v1.0.0") (gs "example.com/a")
    [] (by decide) (by decide)).mpr (Or.inr (Or.inr (Or.inl (by decide))))

/-- Claim C3: under the `gopkg.in/` host, acceptance requires the version
to begin with the suffix after the last `.` of the module path, and a
version carrying `+incompatible` build metadata is always rejected. -/
theorem checkModulePathVer_gopkg (p ver : GoStr)
    (hg : goStartsWith p (gs "gopkg.in/") = true) :
    (∀ r, checkModulePathVer p ver = some r →
      ∃ idx, lastIdxOf '.' p = some idx ∧
        goStartsWith ver (p.drop (idx + 1)) = true) ∧
    (semverBuild ver = gs "+incompatible" → checkModulePathVer p ver = none) := by
  constructor
  · intro r hr
    rw [checkModulePathVer, if_pos hg] at hr
    split at hr
    · simp at hr
    · split at hr
      next idx heq =>
        split at hr
        next hsw => exact ⟨idx, heq, hsw⟩
        next => simp at hr
      next => simp at hr
  · intro hI
    rw [checkModulePathVer, if_pos hg, if_pos hI]

/-- Witness for C3 at a concrete input. -/
theorem checkModulePathVer_gopkg_witness :
    ∃ idx, lastIdxOf '.' (gs "gopkg.in/yaml.v2") = some idx ∧
      goStartsWith (gs "v2.1.0") ((gs "gopkg.in/yaml.v2").drop (idx + 1)) = true :=
  (checkModulePathVer_gopkg (gs "gopkg.in/yaml.v2") (gs "v2.1.0") (by decide)).1
    (gs "gopkg.in/yaml.v2", [], false) (by decide)

/-- Claim C10: an accepted `gopkg.in/` pair returns the module path
unchanged, an empty major tag, and a cleared incompatible flag. -/
theorem checkModulePathVer_gopkg_id (p ver : GoStr) (r : GoStr × GoStr × Bool)
    (hg : goStartsWith p (gs "gopkg.in/") = true)
    (h : checkModulePathVer p ver = some r) : r = (p, [], false) := by
  rw [checkModulePathVer, if_pos hg] at h
  split at h
  · simp at h
  · split at h
    next idx heq =>
      split at h
      · simp only [Option.some.injEq] at h
        exact h.symm
      · simp at h
    next => simp at h

/-- Witness for C10 at a concrete input. -/
theorem checkModulePathVer_gopkg_id_witness :
    ((gs "gopkg.in/yaml.v2", [], false) : GoStr × GoStr × Bool) =
      (gs "gopkg.in/yaml.v2", [], false) :=
  checkModulePathVer_gopkg_id (gs "gopkg.in/yaml.v2") (gs "v2.5.1")
    (gs "gopkg.in/yaml.v2", [], false) (by decide) (by decide)

/-- Claim C8, as stated, is false: `checkModulePathVer` accepts
`example.com/foo/v2` with version `v2.0.0+incompatible`, returning both a
non-empty `v2` major tag and a set incompatible flag. -/
theorem checkModulePathVer_incompat_counterexample :
    checkModulePathVer (gs "example.com/foo/v2") (gs "v2.0.0+incompatible") =
      some (gs "example.com/foo", gs "v2", true) ∧ (gs "v2" : GoStr) ≠ [] :=
  ⟨by decide, by decide⟩

/-- Claim C8, amended: on any accepted pair the returned incompatible flag
is set iff the version carries `+incompatible` build metadata; the flag
does not force the major-version tag to be empty. -/
theorem checkModulePathVer_incompat_iff (p ver m t : GoStr) (i : Bool)
    (h : checkModulePathVer p ver = some (m, t, i)) :
    i = true ↔ semverBuild ver = gs "+incompatible" := by
  rw [checkModulePathVer] at h
  split at h
  · split at h
    · simp at h
    next hni =>
      split at h
      · split at h
        · simp only [Option.some.injEq, Prod.mk.injEq] at h
          rw [← h.2.2]
          simp [hni]
        · simp at h
      · simp at h
  · split at h
    · simp at h
    · split at h
      · simp at h
      · simp only [Option.some.injEq, Prod.mk.injEq] at h
        rw [← h.2.2]
        simp

/-- Witness for the amended C8 at a concrete input. -/
theorem checkModulePathVer_incompat_iff_witness :
    true = true ↔ semverBuild (gs "v2.0.0+incompatible") = gs "+incompatible" :=
  checkModulePathVer_incompat_iff (gs "example.com/foo/v2") (gs "v2.0.0+incompatible")
    (gs "example.com/foo") (gs "v2") true (by decide)

/-! C4: the local VCS lookup walks boundary prefixes from longest to
shortest -/

theorem boundaryPre_take {M P : GoStr} (h : BoundaryPre M P) :
    P = M.take P.length ∧ P.length ≤ M.length := by
  rcases h with rfl | ⟨S, rfl⟩
  · exact ⟨(List.take_length P).symm, le_refl _⟩
  · constructor
    · rw [List.take_left' rfl]
    · simp

theorem boundaryPre_slash {M P : GoStr} (h : BoundaryPre M P)
    (hne : P.length ≠ M.length) : M[P.length]? = some '/' := by
  rcases h with rfl | ⟨S, rfl⟩
  · exact absurd rfl hne
  · rw [List.getElem?_append_right (le_refl _)]
    simp

theorem boundaryPre_of_slash {M : GoStr} {i : Nat} (h : M[i]? = some '/') :
    BoundaryPre M (M.take i) := by
  right
  refine ⟨M.drop (i + 1), ?_⟩
  have hi : i < M.length := by
    by_contra hlt
    rw [List.getElem?_eq_none (by omega)] at h
    simp at h
  have hM : M[i] = '/' := by
    have := List.getElem?_eq_getElem hi
    rw [this] at h
    simpa using h
  conv_lhs => rw [← List.take_append_drop i M]
  rw [← List.get_drop_eq_drop M i hi]
  simp [hM]

/-- The correctness contract of `checkModVcsLocal` (claim C4): a `some`
result names a boundary prefix carrying a `.vcs` symlink, reconstructs the
module path from the prefix and the returned subdirectory, and no longer
boundary prefix carries a `.vcs` symlink; a `none` result means no boundary
prefix carries one. -/
def C4Post (vcs : GoStr → Option GoStr) (M : GoStr)
    (res : Option (GoStr × GoStr × GoStr)) : Prop :=
  match res with
  | some (P, S, target) =>
    vcs P = some target ∧ ((S = [] ∧ P = M) ∨ M = P ++ '/' :: S) ∧
      ∀ Q, BoundaryPre M Q → P.length < Q.length → vcs Q = none
  | none => ∀ Q, BoundaryPre M Q → vcs Q = none

theorem checkModVcsLocalAux_spec (vcs : GoStr → Option GoStr) (M : GoStr) :
    ∀ fuel sep subPath, sep < fuel → sep ≤ M.length →
      ((sep = M.length ∧ subPath = []) ∨
        (M[sep]? = some '/' ∧ subPath = M.drop (sep + 1))) →
      (∀ Q, BoundaryPre M Q → sep < Q.length → vcs Q = none) →
      C4Post vcs M (checkModVcsLocalAux vcs M fuel sep subPath) := by
  intro fuel
  induction fuel with
  | zero => intro sep _ h; omega
  | succ fuel ih =>
    intro sep subPath hfuel hsep hshape hinv
    have hlenP : (M.take sep).length = sep := by
      rw [List.length_take]
      omega
    rw [checkModVcsLocalAux]
    rcases hv : vcs (M.take sep) with _ | target
    · -- no `.vcs` at this prefix: recurse or fail
      rcases hidx : lastIdxOf '/' (M.take sep) with _ | sep2
      · -- no further `/`: every boundary prefix has been refuted
        simp only [C4Post]
        intro Q hQ
        obtain ⟨hQtake, hQle⟩ := boundaryPre_take hQ
        rcases Nat.lt_trichotomy Q.length sep with hlt | heq | hgt
        · -- a shorter boundary prefix would give a `/` inside `M.take sep`
          exfalso
          have hne : Q.length ≠ M.length := by omega
          have hsl := boundaryPre_slash hQ hne
          have : (M.take sep)[Q.length]? = some '/' := by
            rw [List.getElem?_take_of_lt hlt]
            exact hsl
          exact lastIdxOf_none hidx Q.length this
        · rw [hQtake, heq]
          exact hv
        · exact hinv Q hQ hgt
      · -- recurse at the next boundary
        have hsep2lt : sep2 < sep := by
          have := lastIdxOf_lt hidx
          omega
        have hslash : M[sep2]? = some '/' := by
          have := lastIdxOf_getElem hidx
          rwa [List.getElem?_take_of_lt hsep2lt] at this
        refine ih sep2 (M.drop (sep2 + 1)) (by omega) (by omega)
          (Or.inr ⟨hslash, rfl⟩) ?_
        intro Q hQ hQgt
        obtain ⟨hQtake, hQle⟩ := boundaryPre_take hQ
        rcases Nat.lt_trichotomy Q.length sep with hlt | heq | hgt
        · exfalso
          have hne : Q.length ≠ M.length := by omega
          have hsl := boundaryPre_slash hQ hne
          have hin : (M.take sep)[Q.length]? = some '/' := by
            rw [List.getElem?_take_of_lt hlt]
            exact hsl
          exact lastIdxOf_last hidx Q.length hQgt hin
        · rw [hQtake, heq]
          exact hv
        · exact hinv Q hQ hgt
    · -- found `.vcs`: this is the answer
      simp only [C4Post]
      refine ⟨hv, ?_, ?_⟩
      · rcases hshape with ⟨hse, hsub⟩ | ⟨hsl, hsub⟩
        · left
          exact ⟨hsub, by rw [hse, List.take_length]⟩
        · right
          have hi : sep < M.length := by
            by_contra hlt
            rw [List.getElem?_eq_none (by omega)] at hsl
            simp at hsl
          have hM : M[sep] = '/' := by
            have := List.getElem?_eq_getElem hi
            rw [this] at hsl
            simpa using hsl
          conv_lhs => rw [← List.take_append_drop sep M]
          rw [← List.get_drop_eq_drop M sep hi]
          simp [hM, hsub]
      · intro Q hQ hQgt
        rw [hlenP] at hQgt
        exact hinv Q hQ hQgt

/-- Claim C4: `checkModVcsLocal` returns the longest `/`-boundary prefix of
the module path whose `.vcs` symlink is readable, together with the
remaining suffix as the in-repo subdirectory and the symlink target as the
VCS kind, and reports not-exist when no boundary prefix has a `.vcs`. -/
theorem checkModVcsLocal_spec (vcs : GoStr → Option GoStr) (M : GoStr) :
    C4Post vcs M (checkModVcsLocal vcs M) := by
  refine checkModVcsLocalAux_spec vcs M (M.length + 1) M.length [] (by omega)
    (le_refl _) (Or.inl ⟨rfl, rfl⟩) ?_
  intro Q hQ hgt
  obtain ⟨_, hQle⟩ := boundaryPre_take hQ
  omega

/-- A two-repository filesystem used to witness C4 concretely. -/
def vcsExample : GoStr → Option GoStr := fun p =>
  if p = gs "example.com/a" then some (gs ".git") else none

/-- Witness for C4 at a concrete input. -/
theorem checkModVcsLocal_spec_witness :
    vcsExample (gs "example.com/a") = some (gs ".git") ∧
    gs "example.com/a/b" = gs "example.com/a" ++ '/' :: gs "b" ∧
    vcsExample (gs "example.com/a/b") = none := by
  have h := checkModVcsLocal_spec vcsExample (gs "example.com/a/b")
  rw [show checkModVcsLocal vcsExample (gs "example.com/a/b") =
      some (gs "example.com/a", gs "b", gs ".git") from by decide] at h
  simp only [C4Post] at h
  refine ⟨h.1, ?_, ?_⟩
  · rcases h.2.1 with ⟨hS, _⟩ | hr
    · exact absurd hS (by decide)
    · exact hr
  · exact h.2.2 (gs "example.com/a/b") (Or.inl rfl) (by decide)

/-! C5: refspec computation and the single `v`-stripping retry -/

theorem cacheModGitCheck_eq (qa : GoStr → Bool) (pv : Bool) (subPath r : GoStr)
    (hr : pv = false → subPath = [] → goStartsWith (stripV r) (gs "v") = false) :
    cacheModGitCheck qa pv subPath r =
      (qa r || (!pv && subPath.isEmpty && goStartsWith r (gs "v") && qa (stripV r))) := by
  rcases r with _ | ⟨c, rest⟩
  · simp [cacheModGitCheck, goStartsWith]
  · rw [cacheModGitCheck]
    by_cases hpv : pv = true
    · simp [hpv]
    · have hpv' : pv = false := by simpa using hpv
      subst hpv'
      rcases subPath with _ | ⟨s, ss⟩
      · by_cases hc : c = 'v'
        · subst hc
          have hrest := hr rfl rfl
          simp only [stripV] at hrest
          have : cacheModGitCheck qa false [] rest = qa rest := by
            rcases rest with _ | ⟨d, rest'⟩
            · rfl
            · rw [cacheModGitCheck]
              have hd : (d == 'v') = false := by
                rcases rest' with _ | _ <;>
                  simpa [goStartsWith] using hrest
              simp [hd]
          simp [this, stripV, goStartsWith]
        · have hcb : (c == 'v') = false := by simpa using hc
          simp [hcb, stripV, goStartsWith]
      · simp [goStartsWith]

theorem serveModGitResolveRef_eq (qb : GoStr → Option Int) (pv : Bool) (subPath r : GoStr)
    (hr : pv = false → subPath = [] → goStartsWith (stripV r) (gs "v") = false) :
    serveModGitResolveRef qb pv subPath r =
      (match qb r with
        | some tm => some (r, tm)
        | none =>
          if !pv && subPath.isEmpty && goStartsWith r (gs "v") then
            match qb (stripV r) with
            | some tm => some (stripV r, tm)
            | none => none
          else none) := by
  rcases r with _ | ⟨c, rest⟩
  · rcases hq : qb [] with _ | tm <;> simp [serveModGitResolveRef, goStartsWith, hq]
  · rw [serveModGitResolveRef]
    rcases hq : qb (c :: rest) with _ | tm
    · by_cases hpv : pv = true
      · simp [hpv]
      · have hpv' : pv = false := by simpa using hpv
        subst hpv'
        rcases subPath with _ | ⟨s, ss⟩
        · by_cases hc : c = 'v'
          · subst hc
            have hrest := hr rfl rfl
            simp only [stripV] at hrest
            have : serveModGitResolveRef qb false [] rest =
                (match qb rest with
                  | some tm => some (rest, tm)
                  | none => none) := by
              rcases rest with _ | ⟨d, rest'⟩
              · rcases hq0 : qb [] with _ | tm <;> simp [serveModGitResolveRef, hq0]
              · rw [serveModGitResolveRef]
                rcases hq1 : qb (d :: rest') with _ | tm
                · have hd : (d == 'v') = false := by
                    rcases rest' with _ | _ <;>
                      simpa [goStartsWith] using hrest
                  simp [hd]
                · simp
            simp [this, stripV, goStartsWith]
          · have hcb : (c == 'v') = false := by simpa using hc
            simp [hcb, stripV, goStartsWith]
        · simp [goStartsWith]
    · simp

/-- Claim C5: in both the fast-path existence check (`cacheModGit`) and the
archive assembler (`serveModGit`), the refspec is the pseudo-version's
commit hash for pseudo-versions, `<subdir>/<version>` when a subdirectory
is present, and the canonical version otherwise; and on a failed query with
no subdirectory, a non-pseudo version, and a `v`-leading refspec, the query
is retried exactly once with the leading `v` stripped.  The hypothesis
records that the canonical version does not begin with two `v`s, which
holds for every output of `semver.Canonical`. -/
theorem refspecTrials_spec (qa : GoStr → Bool) (qb : GoStr → Option Int) (pv : Bool)
    (subPath vc rev : GoStr)
    (hvc : goStartsWith (stripV vc) (gs "v") = false) :
    (refspecInit pv subPath vc rev =
      if pv then rev else if subPath = [] then vc else subPath ++ '/' :: vc) ∧
    (cacheModGitCheck qa pv subPath (refspecInit pv subPath vc rev) =
      (qa (refspecInit pv subPath vc rev) ||
        (!pv && subPath.isEmpty && goStartsWith (refspecInit pv subPath vc rev) (gs "v") &&
          qa (stripV (refspecInit pv subPath vc rev))))) ∧
    (serveModGitResolveRef qb pv subPath (refspecInit pv subPath vc rev) =
      (match qb (refspecInit pv subPath vc rev) with
        | some tm => some (refspecInit pv subPath vc rev, tm)
        | none =>
          if !pv && subPath.isEmpty && goStartsWith (refspecInit pv subPath vc rev) (gs "v") then
            match qb (stripV (refspecInit pv subPath vc rev)) with
            | some tm => some (stripV (refspecInit pv subPath vc rev), tm)
            | none => none
          else none)) := by
  have hshape : pv = false → subPath = [] →
      goStartsWith (stripV (refspecInit pv subPath vc rev)) (gs "v") = false := by
    intro hpv hsub
    subst hpv; subst hsub
    simpa [refspecInit] using hvc
  refine ⟨?_, cacheModGitCheck_eq qa pv subPath _ hshape,
    serveModGitResolveRef_eq qb pv subPath _ hshape⟩
  rcases pv with _ | _ <;> rcases subPath with _ | ⟨s, ss⟩ <;> simp [refspecInit]

/-- Example git query oracles used by the C5 witness. -/
def qaExample : GoStr → Bool := fun r => decide (r = gs "1.2.3")

/-- Example timestamp oracle used by the C5 witness. -/
def qbExample : GoStr → Option Int := fun r => if r = gs "1.2.3" then some 5 else none

/-- Witness for C5 at a concrete input: the `v`-less tag is found on the
retry. -/
theorem refspecTrials_spec_witness :
    cacheModGitCheck qaExample false [] (refspecInit false [] (gs "v1.2.3") []) = true := by
  have h := (refspecTrials_spec qaExample qbExample false [] (gs "v1.2.3") []
    (by decide)).2.1
  rw [h]
  decide

/-! C6: the mod-file assembly, retry without the tag, and synthesis -/

theorem append_right_ne (a b : GoStr) (hb : b ≠ []) : a ++ b ≠ a := by
  intro h
  have hlen := congrArg List.length h
  rw [List.length_append] at hlen
  have : b.length = 0 := by omega
  exact hb (List.length_eq_zero.mp this)

/-- Claim C6: the `.mod` branch first extracts `go.mod` from the treeish
extended with the major tag; when a tag is present and that extraction
fails it retries once without the tag; and when both extractions fail it
succeeds anyway with the synthesized body `module <full-module-path>\n`,
the full path being root, subdirectory, and tag joined by `/`. -/
theorem serveModGitMod_spec (run : GoStr → GitArchiveResult)
    (refspec subPath verMajorTag modulePath : GoStr) :
    (∀ d, run (if verMajorTag ≠ [] then modTreeBase refspec subPath ++ verMajorTag
               else modTreeBase refspec subPath) = .found d →
      serveModGitMod run refspec subPath verMajorTag modulePath = some d) ∧
    (verMajorTag ≠ [] → run (modTreeBase refspec subPath ++ verMajorTag) = .missing →
      ∀ d, run (modTreeBase refspec subPath) = .found d →
        serveModGitMod run refspec subPath verMajorTag modulePath = some d) ∧
    (run (if verMajorTag ≠ [] then modTreeBase refspec subPath ++ verMajorTag
          else modTreeBase refspec subPath) = .missing →
     run (modTreeBase refspec subPath) = .missing →
      serveModGitMod run refspec subPath verMajorTag modulePath =
        some (gs "module " ++ modFullPath modulePath subPath verMajorTag ++ ['\n'])) := by
  by_cases htag : verMajorTag = []
  · subst htag
    refine ⟨?_, ?_, ?_⟩
    · intro d hrun
      simp only [ne_eq, not_true_eq_false, if_false] at hrun
      simp [serveModGitMod, hrun]
    · intro habs
      exact absurd rfl habs
    · intro h1 _
      simp only [ne_eq, not_true_eq_false, if_false] at h1
      simp [serveModGitMod, h1]
  · have hne : modTreeBase refspec subPath ++ verMajorTag ≠ modTreeBase refspec subPath :=
      append_right_ne _ _ htag
    refine ⟨?_, ?_, ?_⟩
    · intro d hrun
      rw [if_pos htag] at hrun
      simp [serveModGitMod, htag, hrun]
    · intro _ h1 d h2
      simp [serveModGitMod, htag, h1, h2, hne]
    · intro h1 h2
      rw [if_pos htag] at h1
      simp [serveModGitMod, htag, h1, h2, hne]

/-- Oracle for the C6 witness: no `go.mod` anywhere. -/
def runMissingExample : GoStr → GitArchiveResult := fun _ => .missing

/-- Witness for C6 at a concrete input: both extractions fail and the
synthesized `go.mod` is produced for root, subdirectory, and tag. -/
theorem serveModGitMod_spec_witness :
    serveModGitMod runMissingExample (gs "v1.2.3") (gs "sub") (gs "v2") (gs "example.com/a") =
      some (gs "module " ++ modFullPath (gs "example.com/a") (gs "sub") (gs "v2") ++ ['\n']) :=
  (serveModGitMod_spec runMissingExample (gs "v1.2.3") (gs "sub") (gs "v2")
    (gs "example.com/a")).2.2 (by decide) (by decide)

/-! C7: the survey pass and the Pass 4 (LICENSE injection) skip rule -/

theorem license_ne_verLicense (vertag : GoStr) :
    (gs "LICENSE" : GoStr) ≠ vertag ++ gs "/LICENSE" := by
  intro h
  have hlen := congrArg List.length h
  rw [List.length_append] at hlen
  rw [show (gs "LICENSE").length = 7 from rfl, show (gs "/LICENSE").length = 8 from rfl]
    at hlen
  omega

theorem collectStep_hasLicense (vertag : GoStr) (st : CollectState) (e : TarEntry) :
    (collectStep vertag st e).hasLicense =
      (st.hasLicense || (e.ty == TarType.reg && e.name == gs "LICENSE")) := by
  rcases e with ⟨name, ty⟩
  cases ty with
  | dir => simp [collectStep]
  | other => simp [collectStep]
  | reg =>
    simp only [collectStep]
    by_cases h1 : name = gs "LICENSE" <;>
      by_cases h2 : name = vertag ++ gs "/LICENSE" <;>
        split_ifs <;>
          simp_all

theorem collectStep_hasVerLicense (vertag : GoStr) (st : CollectState) (e : TarEntry) :
    (collectStep vertag st e).hasVerLicense =
      (st.hasVerLicense || (e.ty == TarType.reg && e.name == vertag ++ gs "/LICENSE")) := by
  rcases e with ⟨name, ty⟩
  cases ty with
  | dir => simp [collectStep]
  | other => simp [collectStep]
  | reg =>
    simp only [collectStep]
    by_cases h1 : name = gs "LICENSE"
    · have h2 : name ≠ vertag ++ gs "/LICENSE" := h1 ▸ license_ne_verLicense vertag
      split_ifs <;> simp_all
    · by_cases h2 : name = vertag ++ gs "/LICENSE" <;> split_ifs <;> simp_all

theorem collectStep_useVersionedDir (vertag : GoStr) (st : CollectState) (e : TarEntry) :
    (collectStep vertag st e).useVersionedDir =
      (st.useVersionedDir || (e.ty == TarType.reg && e.name == vertag ++ gs "/go.mod")) := by
  rcases e with ⟨name, ty⟩
  cases ty with
  | dir => simp [collectStep]
  | other => simp [collectStep]
  | reg =>
    simp only [collectStep]
    by_cases hmod : name = vertag ++ gs "/go.mod"
    · have hend : goEndsWith name (gs "/go.mod") = true := (endsWith_trim_eq.mpr hmod).1
      have htrim : goTrimSuffix name (gs "/go.mod") = vertag := (endsWith_trim_eq.mpr hmod).2
      split_ifs <;> simp_all
    · have hnot : ¬(goEndsWith name (gs "/go.mod") = true ∧
          goTrimSuffix name (gs "/go.mod") = vertag) := fun hc =>
        hmod (endsWith_trim_eq.mp hc)
      split_ifs with hA hB <;> simp_all

theorem foldl_collect_field (vertag : GoStr) (fld : CollectState → Bool)
    (p : TarEntry → Bool)
    (hstep : ∀ st e, fld (collectStep vertag st e) = (fld st || p e)) :
    ∀ (es : List TarEntry) (st : CollectState),
      fld (es.foldl (collectStep vertag) st) = (fld st || es.any p) := by
  intro es
  induction es with
  | nil => intro st; simp
  | cons e es ih =>
    intro st
    rw [List.foldl_cons, ih, hstep, List.any_cons]
    rw [Bool.or_assoc]

/-- Claim C7, amended: Pass 4 (LICENSE injection) is skipped exactly when
the survey pass found a LICENSE at the effective scope — `<tag>/LICENSE`
when a regular `<tag>/go.mod` marked the module as living in a versioned
subdirectory, the root `LICENSE` otherwise — or when the request has no
subdirectory and no major-version tag; in every other case the injection
pass runs. -/
theorem zipPass4Skip_iff (entries : List TarEntry) (pre treeish subPath verMajorTag : GoStr) :
    serveModGitZipSkipsPass4 entries pre treeish subPath verMajorTag =
      ((if entries.any (fun e => e.ty == TarType.reg && e.name == verMajorTag ++ gs "/go.mod")
        then entries.any (fun e => e.ty == TarType.reg && e.name == verMajorTag ++ gs "/LICENSE")
        else entries.any (fun e => e.ty == TarType.reg && e.name == gs "LICENSE")) ||
       (subPath.isEmpty && verMajorTag.isEmpty)) := by
  have hUse := foldl_collect_field verMajorTag (fun st => st.useVersionedDir)
    (fun e => e.ty == TarType.reg && e.name == verMajorTag ++ gs "/go.mod")
    (collectStep_useVersionedDir verMajorTag) entries ⟨false, false, false, []⟩
  have hLic := foldl_collect_field verMajorTag (fun st => st.hasLicense)
    (fun e => e.ty == TarType.reg && e.name == gs "LICENSE")
    (collectStep_hasLicense verMajorTag) entries ⟨false, false, false, []⟩
  have hVer := foldl_collect_field verMajorTag (fun st => st.hasVerLicense)
    (fun e => e.ty == TarType.reg && e.name == verMajorTag ++ gs "/LICENSE")
    (collectStep_hasVerLicense verMajorTag) entries ⟨false, false, false, []⟩
  simp only [Bool.false_or] at hUse hLic hVer
  simp only [serveModGitZipSkipsPass4, collectGitArchiveOpts, hUse, hLic, hVer]

/-- Claim C7, as stated, is false: with a root LICENSE found by the survey
and a subdirectory present, the code skips Pass 4 (the license is already
in the archive), while the claim requires an injection attempt. -/
theorem zipPass4Skip_counterexample :
    serveModGitZipSkipsPass4 [⟨gs "LICENSE", .reg⟩] (gs "p@v1.0.0/") (gs "t:")
      (gs "sub") [] = true ∧
    specPass4Skip (collectGitArchiveOpts [⟨gs "LICENSE", .reg⟩] (gs "p@v1.0.0/")
      (gs "t:") []).2 (gs "sub") [] = false :=
  ⟨by decide, by decide⟩

end GoProxy
